import Mathlib

/-!
A verification development for the query/predicate layer and the highlight
composer of the tree-house syntax highlighting engine.  Source text is
modelled as a list of byte values grouped into chunks, mirroring the chunked
rope input consumed by the bindings; query strings and file contents are
modelled as lists of characters.  Machine integers (u32/usize) are modelled
as Nat: none of the verified routines performs wrapping arithmetic.
-/

/-! ## Chunked input model (src/bindings/src/ropey.rs, ropey2.rs) -/

/-- Total byte length of a chunk list. -/
def sumLen (chunks : List (List Nat)) : Nat := (chunks.map List.length).sum

/-- Model of the rope cursor constructor positioned at `offset` (the external
rope library, `chunk_cursor_at`): the first chunk whose end lies beyond
`offset`, or the last chunk when `offset` is at or past the end.  Returns
`(chunk start offset, chunk, remaining chunks)`.  The accumulator `co` is the
offset of the first chunk of the list argument. -/
def seekChunk (offset : Nat) : Nat → List (List Nat) → Nat × List Nat × List (List Nat)
  | co, [] => (co, [], [])
  | co, [c] => (co, c, [])
  | co, c :: c2 :: rest =>
    if offset < co + c.length then (co, c, c2 :: rest)
    else seekChunk offset (co + c.length) (c2 :: rest)

/-- The chunk-by-chunk advance loop of `RopeInput::cursor_at`: while the
current chunk ends at or before `offset`, move to the next chunk; stop when
advancing fails. -/
def advanceWhile (offset : Nat) : Nat → List Nat → List (List Nat) → Nat × List Nat × List (List Nat)
  | co, cc, [] => (co, cc, [])
  | co, cc, c :: rest =>
    if co + cc.length ≤ offset then advanceWhile offset (co + cc.length) c rest
    else (co, cc, c :: rest)

/-- Model of `RopeInput::cursor_at`: reseat through the rope library when
seeking backwards or more than 4906 bytes ahead of the current chunk start,
otherwise advance chunk by chunk.  The cursor state is `(co, cc, rest)`:
offset of the current chunk, the current chunk, and the chunks after it. -/
def cursor_at (chunks : List (List Nat)) (co : Nat) (cc : List Nat)
    (rest : List (List Nat)) (offset : Nat) : Nat × List Nat × List (List Nat) :=
  if offset < co || co + 4906 < offset then seekChunk offset 0 chunks
  else advanceWhile offset co cc rest

/-! ## Query data model (src/bindings/src/query.rs, query/predicate.rs) -/

/-- A step argument of a parsed predicate: a capture id or a string id. -/
inductive PredicateArgM where
  | capture (idx : Nat)
  | str (idx : Nat)
deriving DecidableEq

/-- A raw predicate as handed over by the grammar library: an operator name
followed by its arguments. -/
structure RawPredicate where
  name : String
  args : List PredicateArgM
deriving DecidableEq

/-- The data of a compiled `Query` that the verified routines inspect: the
interned string literals and, per pattern in source order, the raw
predicates the grammar library reported for it. -/
structure Query where
  strings : List (List Nat)
  patternPredicates : List (List RawPredicate)

/-- String lookup on valid ids (`QueryStr::get`). -/
def Query.get_string (q : Query) (i : Nat) : List Nat := q.strings.getD i []

/-- The `(negated, match_all)` pair computed by
`Query::parse_pattern_predicates` for the eq- and match-family built-in
predicates, `none` for any other name.  The tests mirror the `matches!`
expressions of the source verbatim. -/
def builtin_text_predicate_flags (name : String) : Option (Bool × Bool) :=
  if name = "eq?" || name = "not-eq?" || name = "any-eq?" || name = "any-not-eq?" then
    some
      (name = "not-eq?" || name = "not-any-eq?",
       name = "eq?" || name = "not-eq?")
  else if name = "match?" || name = "not-match?" || name = "any-match?" || name = "any-not-match?" then
    some
      (name = "not-match?" || name = "any-not-match?",
       name = "match?" || name = "not-match?")
  else none

/-- Whether `Query::parse_pattern_predicates` appends an entry to the shared
`text_predicates` vector for this predicate (as opposed to delivering it to
the custom-predicate callback): the eq- and match-families always push one,
and `any-of?` / `not-any-of?` push one exactly when their first argument is a
capture. -/
def pushes_text_predicate (p : RawPredicate) : Bool :=
  if (builtin_text_predicate_flags p.name).isSome then true
  else if p.name = "any-of?" || p.name = "not-any-of?" then
    match p.args.head? with
    | some (.capture _) => true
    | _ => false
  else false

/-- Length of the query-wide `text_predicates` vector after compilation: each
pattern contributes one entry per pushed predicate. -/
def Query.text_predicate_count (q : Query) : Nat :=
  (q.patternPredicates.map (fun ps => (ps.filter pushes_text_predicate).length)).sum

/-- `Query::pattern_count`. -/
def Query.pattern_count (q : Query) : Nat := q.patternPredicates.length

/-- The panic behaviour of `Query::start_byte_for_pattern`: the source
asserts `pattern.0 < self.text_predicates.len()` before calling into the
grammar library; `some ()` models the call proceeding, `none` models the
assertion panicking. -/
def Query.start_byte_for_pattern (q : Query) (pattern : Nat) : Option Unit :=
  if pattern < q.text_predicate_count then some () else none

/-- The assertion guarding `Query::get_string`: `some ()` means the call
proceeds into the grammar library with `valueId`, `none` means it panics. -/
def get_string_guard (numStrings valueId : Nat) : Option Unit :=
  if valueId ≤ numStrings then some () else none

/-- The assertion guarding `Query::capture_name`. -/
def capture_name_guard (numCaptures captureIdx : Nat) : Option Unit :=
  if captureIdx ≤ numCaptures then some () else none

/-! ## Text predicates (src/bindings/src/query/predicate.rs) -/

/-- The inner loop of `input_matches_str`, entered once the needle spans past
the chunk the cursor starts in: `s` is the part of the needle still to be
matched, `co` the offset of the chunk the cursor has advanced to, and the
list holds that chunk and its successors.  An empty list models
`cursor.advance()` failing. -/
def imsLoop (bEnd : Nat) : List Nat → Nat → List (List Nat) → Bool
  | _, _, [] => false
  | s, co, cc :: rest =>
    if s.length ≤ cc.length then decide (cc.take (bEnd - co) = s)
    else if decide (s.take cc.length = cc) then imsLoop bEnd (s.drop cc.length) (co + cc.length) rest
    else false

/-- Model of `input_matches_str(s, a..b, input)`: compare the needle `s`
against the source bytes `[a, b)` of the chunked input, starting from the
cursor that `cursor_at(a)` yields.  When the range spans past the first
chunk, the source compares the first-chunk part and then continues the loop
with `str = &str[..k]` (the already-compared prefix of length
`k = chunk.len() - start_in_chunk`) rather than the remaining suffix. -/
def input_matches_str (s : List Nat) (a b : Nat) (chunks : List (List Nat)) : Bool :=
  if s.length ≠ b - a then false
  else
    let pos := seekChunk a 0 chunks
    let co := pos.1
    let cc := pos.2.1
    let startInChunk := a - co
    if b - co ≤ cc.length then decide ((cc.drop startInChunk).take (b - co - startInChunk) = s)
    else if decide (cc.drop startInChunk = s.take (cc.length - startInChunk)) then
      imsLoop b (s.take (cc.length - startInChunk)) (co + cc.length) pos.2.2
    else false

/-- A node recorded for one capture of a match (`MatchedNode`): the capture
id and the byte range of the captured syntax node. -/
structure MatchedNode where
  capture : Nat
  startByte : Nat
  endByte : Nat
deriving DecidableEq

/-- Bytes of the source in the range `[a, b)` (the source text is the
concatenation of the chunks). -/
def extractBytes (chunks : List (List Nat)) (a b : Nat) : List Nat :=
  ((chunks.flatten).take b).drop a

/-- Model of `Input::eq` for the rope inputs: byte equality of two ranges. -/
def inputEq (chunks : List (List Nat)) (a1 b1 a2 b2 : Nat) : Bool :=
  decide (extractBytes chunks a1 b1 = extractBytes chunks a2 b2)

/-- The kind of a compiled text predicate.  A compiled regex is opaque; it is
modelled by its matching function applied to the bytes of the node range
(which is what `Regex::is_match` on the range-bounded cursor input
computes). -/
inductive TextPredicateKind where
  | eqString (strId : Nat)
  | eqCapture (capture : Nat)
  | matchString (test : List Nat → Bool)
  | anyString (strIds : List Nat)

/-- A compiled text predicate. -/
structure TextPredicate where
  capture : Nat
  kind : TextPredicateKind
  negated : Bool
  matchAll : Bool

/-- `TextPredicate::satisfied_helper`: reduce the per-node booleans with
`all` or `any`, XOR-ing each with `negated`. -/
def satisfied_helper (negated matchAll : Bool) (nodes : List Bool) : Bool :=
  if matchAll then nodes.all (fun m => m != negated) else nodes.any (fun m => m != negated)

/-- Driving `std::iter::zip` over two iterators to exhaustion: the pairs it
produced, and what is left of each side afterwards.  When the left iterator
still holds elements, the final `next` of the pair iterator consumes one of
them before finding the right side exhausted, so that element is gone from
the leftover. -/
def rustZipRest {α β : Type} : List α → List β → List (α × β) × List α × List β
  | [], bs => ([], [], bs)
  | _ :: as, [] => ([], as, [])
  | a :: as, b :: bs =>
    let r := rustZipRest as bs
    ((a, b) :: r.1, r.2.1, r.2.2)

/-- Model of `TextPredicate::satisfied` over the completed node list of one
match.  For `EqCapture` the source zips the nodes of the two captures,
reduces with `satisfied_helper`, and then requires (under `match_all`) that
both iterators are exhausted; the leftovers after the zip follow
`rustZipRest`.  (The source computes the leftover on the partially consumed
iterators when the reduction short-circuits, but in that case the result is
`false` either way.) -/
def TextPredicate.satisfied (tp : TextPredicate) (chunks : List (List Nat))
    (matchedNodes : List MatchedNode) (q : Query) : Bool :=
  let captureNodes := matchedNodes.filter (fun n => n.capture == tp.capture)
  match tp.kind with
  | .eqString strId =>
    satisfied_helper tp.negated tp.matchAll
      (captureNodes.map (fun n => input_matches_str (q.get_string strId) n.startByte n.endByte chunks))
  | .eqCapture other =>
    let otherNodes := matchedNodes.filter (fun n => n.capture == other)
    let z := rustZipRest captureNodes otherNodes
    let res := satisfied_helper tp.negated tp.matchAll
      (z.1.map (fun p => inputEq chunks p.1.startByte p.1.endByte p.2.startByte p.2.endByte))
    let consumedAll := z.2.1.isEmpty && z.2.2.isEmpty
    res && (!tp.matchAll || consumedAll)
  | .matchString test =>
    satisfied_helper tp.negated tp.matchAll
      (captureNodes.map (fun n => test (extractBytes chunks n.startByte n.endByte)))
  | .anyString strIds =>
    satisfied_helper tp.negated tp.matchAll
      (captureNodes.map (fun n =>
        ((strIds.map q.get_string).filter (fun s => s.length == n.endByte - n.startByte)).any
          (fun s => input_matches_str s n.startByte n.endByte chunks)))

/-- The per-node test of a text predicate, read off the respective arm of
`TextPredicate::satisfied` (the pairwise `EqCapture` test is handled
separately). -/
def nodeTest (q : Query) (chunks : List (List Nat)) :
    TextPredicateKind → MatchedNode → Bool
  | .eqString strId, n => input_matches_str (q.get_string strId) n.startByte n.endByte chunks
  | .eqCapture _, _ => true
  | .matchString test, n => test (extractBytes chunks n.startByte n.endByte)
  | .anyString strIds, n =>
    ((strIds.map q.get_string).filter (fun s => s.length == n.endByte - n.startByte)).any
      (fun s => input_matches_str s n.startByte n.endByte chunks)

/-! ## Parser error locations (src/bindings/src/query.rs) -/

/-- Rust `str::split` with a one-character separator. -/
def rustSplit (sep : Char) : List Char → List (List Char)
  | [] => [[]]
  | c :: rest =>
    if c = sep then [] :: rustSplit sep rest
    else
      match rustSplit sep rest with
      | [] => [[c]]
      | l :: ls => (c :: l) :: ls

/-- Joining lines back with a newline between consecutive lines (the inverse
of `rustSplit` at the newline character). -/
def joinLines : List (List Char) → List Char
  | [] => []
  | [l] => l
  | l :: ls => l ++ '\n' :: joinLines ls

/-- `strip_suffix('\r')` with identity fallback. -/
def stripCRSuffix (l : List Char) : List Char :=
  if l.getLast? = some '\r' then l.dropLast else l

/-- Rust `str::lines`: split at newlines, drop an optional final empty
segment, strip one trailing carriage return from each line. -/
def rustLines (s : List Char) : List (List Char) :=
  if s.isEmpty then []
  else
    let p := rustSplit '\n' s
    (if p.getLast? = some ([] : List Char) then p.dropLast else p).map stripCRSuffix

/-- The searching loop of `ParserErrorLocation::new`: walk the split lines,
accumulating the 0-based line number and the offset of the line start, and
stop at the first line whose closed span `[line_start, line_end]` contains
`start`. -/
def findLine (start : Nat) : Nat → Nat → List (List Char) → Option (Nat × Nat × List Char)
  | _, _, [] => none
  | lineNo, byteOffset, l :: rest =>
    if byteOffset ≤ start ∧ start ≤ byteOffset + l.length then some (lineNo, byteOffset, l)
    else findLine start (lineNo + 1) (byteOffset + l.length + 1) rest

/-- The location record attached to query parse errors. -/
structure ParserErrorLocation where
  line : Nat
  column : Nat
  len : Nat
  lineContent : List Char
  lineBefore : Option (List Char)
  lineAfter : Option (List Char)
deriving DecidableEq

/-- Model of `ParserErrorLocation::new(source, start, len)`.  When no line of
the split contains `start` the initial values remain (line 0, column 0,
empty content), exactly as in the source. -/
def ParserErrorLocation.new (source : List Char) (start len : Nat) : ParserErrorLocation :=
  match findLine start 0 0 (rustSplit '\n' source) with
  | none => ⟨0, 0, len, [], none, none⟩
  | some (no, lineStart, thisLine) =>
    let lineEnd := lineStart + thisLine.length
    { line := no
      column := ((source.take start).drop lineStart).length
      len := len
      lineContent := stripCRSuffix thisLine
      lineBefore := ((rustLines (source.take lineStart)).getLast?).filter (fun l => !l.isEmpty)
      lineAfter :=
        if lineEnd + 1 ≤ source.length then
          ((rustLines (source.drop (lineEnd + 1))).head?).filter (fun l => !l.isEmpty)
        else none }

/-- Number of newline characters in a character list (specification side:
the 0-based line number of an offset is the newline count before it). -/
def countNl (l : List Char) : Nat := (l.filter (fun c => c == '\n')).length

/-- Specification side: the start offset of the line containing `off` (the
offset right after the last newline before `off`). -/
def lineStartAt (source : List Char) (off : Nat) : Nat :=
  off - ((source.take off).reverse.takeWhile (fun c => c != '\n')).length

/-- Specification side: the full line containing `off` (up to the next
newline or the end of the source). -/
def currentLineAt (source : List Char) (off : Nat) : List Char :=
  (source.drop (lineStartAt source off)).takeWhile (fun c => c != '\n')

/-! ## Highlight composer (src/highlighter/src/highlighter.rs) -/

/-- `Highlight::NONE` (`u32::MAX`). -/
def HighlightNONE : Nat := 4294967295

/-- An entry of the active-highlight stack (`HighlightedNode`). -/
structure HighlightedNode where
  endByte : Nat
  highlight : Nat
deriving DecidableEq

/-- The per-language configuration consulted by `start_highlight`:
`local_reference_capture`, `non_local_patterns` and the `highlight_indices`
snapshot. -/
structure HLConfig where
  localReferenceCapture : Option Nat
  nonLocalPatterns : List Nat
  highlightIndices : List Nat

/-- The composer state touched by `start_highlight`. -/
structure HLState where
  activeHighlights : List HighlightedNode
  firstHighlight : Bool
deriving DecidableEq

/-- Model of `Highlighter::start_highlight`.  The locals machinery
(`ScopeCursor::advance` followed by `Locals::lookup_reference`, which live
outside this crate) is abstracted by the oracle `lookupRef`, mapping the
start offset of the node to the capture its text resolves to (if any), and
`localDefCaptures`, the layer's `local_definition_captures` map. -/
def start_highlight (cfg : HLConfig) (lookupRef : Nat → Option Nat)
    (localDefCaptures : Nat → Option Nat) (node : MatchedNode) (pattern : Nat)
    (st : HLState) : HLState :=
  let hl? : Option Nat :=
    if some node.capture = cfg.localReferenceCapture then
      match lookupRef node.startByte with
      | none => none
      | some cap => some ((localDefCaptures cap).getD HighlightNONE)
    else if pattern ∈ cfg.nonLocalPatterns ∧ (lookupRef node.startByte).isSome then none
    else some (cfg.highlightIndices.getD node.capture HighlightNONE)
  match hl? with
  | none => st
  | some highlight =>
    let active :=
      if !st.firstHighlight && st.activeHighlights.getLast?.any (fun p => p.endByte == node.endByte) then
        st.activeHighlights.dropLast
      else st.activeHighlights
    if highlight ≠ HighlightNONE then
      ⟨active ++ [⟨node.endByte, highlight⟩], false⟩
    else
      ⟨active, st.firstHighlight⟩

/-- Model of `Highlighter::process_highlight_end`: remove every trailing
stack entry whose `end` equals `pos` (the source truncates at one past the
last index holding a different `end`). -/
def process_highlight_end (pos : Nat) (active : List HighlightedNode) : List HighlightedNode :=
  (active.reverse.dropWhile (fun h => h.endByte == pos)).reverse

/-- The per-layer state touched by the injection boundary handling. -/
structure LayerDataM where
  parentHighlights : Nat
  dormantHighlights : List HighlightedNode
deriving DecidableEq

/-- Model of `Highlighter::deactivate_layer`: clamp the recorded mark to the
stack size, move everything above it into the layer's dormant highlights,
then drop trailing entries ending at `next_highlight_start`.  (The clamp is
on a local copy; the stored mark is unchanged.) -/
def deactivate_layer (ld : LayerDataM) (active : List HighlightedNode)
    (nextHighlightStart : Nat) : LayerDataM × List HighlightedNode :=
  let ph := min ld.parentHighlights active.length
  (⟨ld.parentHighlights, ld.dormantHighlights ++ active.drop ph⟩,
   process_highlight_end nextHighlightStart (active.take ph))

/-- Model of the stack bookkeeping in `Highlighter::enter_injection`: record
the current stack size as the layer's mark, then append the layer's dormant
highlights onto the stack (emptying them). -/
def enter_injection (ld : LayerDataM) (active : List HighlightedNode) :
    LayerDataM × List HighlightedNode :=
  (⟨active.length, []⟩, active ++ ld.dormantHighlights)

/-! ## The inherits directive (src/highlighter/src/config.rs) -/

/-- ASCII fragment of the regex character class `\s`. -/
def isWsAscii (c : Char) : Bool :=
  c == ' ' || c == '\t' || c == '\n' || c == '\r' || c == '\x0b' || c == '\x0c'

/-- The regex character class `[a-z_,()-]`. -/
def isGroupChar (c : Char) : Bool :=
  ('a' ≤ c && c ≤ 'z') || c == '_' || c == ',' || c == '(' || c == ')' || c == '-'

/-- Matching the tail of the `inherits` regex
`;+\s*inherits\s*:?\s*([a-z_,()-]+)\s*` after the leading semicolons: the
whitespace, the literal word, an optional colon, the captured language list
(greedy and non-empty) and the trailing whitespace.  Returns the captured
group and the remainder after the whole match.  The quantifiers require no
backtracking because adjacent pieces draw from disjoint character sets. -/
def matchInheritsBody (s : List Char) : Option (List Char × List Char) :=
  let t1 := s.dropWhile isWsAscii
  if t1.take 8 = "inherits".toList then
    let t2 := (t1.drop 8).dropWhile isWsAscii
    let t3 := if t2.head? = some ':' then t2.tail else t2
    let t4 := t3.dropWhile isWsAscii
    let grp := t4.takeWhile isGroupChar
    if grp.isEmpty then none
    else some (grp, (t4.drop grp.length).dropWhile isWsAscii)
  else none

/-- A match of the `inherits` regex anchored at the head of the text: one or
more semicolons followed by `matchInheritsBody`. -/
def matchInherits : List Char → Option (List Char × List Char)
  | [] => none
  | c :: rest =>
    if c = ';' then matchInheritsBody (rest.dropWhile (fun x => x = ';')) else none

/-- The scan of `Regex::replace_all`: at each position try the (necessarily
non-empty) match; on success emit the replacement and continue after the
match, otherwise keep the character.  The fuel bounds the number of steps;
each step consumes at least one character, so `s.length` always suffices. -/
def replaceAllGo (repl : List Char → List Char) : Nat → List Char → List Char
  | 0, s => s
  | _ + 1, [] => []
  | fuel + 1, c :: rest =>
    match matchInherits (c :: rest) with
    | some (grp, later) => repl grp ++ replaceAllGo repl fuel later
    | none => c :: replaceAllGo repl fuel rest

/-- `INHERITS_REGEX.replace_all(query, repl)`. -/
def replaceAllInherits (repl : List Char → List Char) (s : List Char) : List Char :=
  replaceAllGo repl s.length s

/-- Model of `read_query` (src/highlighter/src/config.rs): read the query
text and replace every `inherits` match by the concatenation, for each
comma-separated language of the captured group, of a newline, that
language's recursively expanded query, and a newline.  The explicit
recursion budget stands in for the loader-side loop detection the source
relies on. -/
def read_query (reader : List Char → String → List Char) :
    Nat → List Char → String → List Char
  | 0, _, _ => []
  | fuel + 1, language, filename =>
    replaceAllInherits
      (fun grp =>
        (rustSplit ',' grp).foldl
          (fun output lang => output ++ '\n' :: (read_query reader fuel lang filename ++ ['\n']))
          [])
      (reader language filename)

/-- A decomposition of a query file into alternating pieces: each element
holds a plain piece, a match of the `inherits` regex, and that match's
captured group; a final plain piece closes the file.  `segsText` is the file
text the decomposition denotes. -/
def segsText : List (List Char × List Char × List Char) → List Char → List Char
  | [], tail => tail
  | (p, m, _) :: rest, tail => p ++ m ++ segsText rest tail

/-- No position inside `p`, followed by the continuation `r`, begins a match
of the `inherits` regex (plain text may well contain other `;` comments). -/
def noMatchWithin : List Char → List Char → Bool
  | [], _ => true
  | c :: p, r => (matchInherits (c :: (p ++ r))).isNone && noMatchWithin p r

/-- Well-formedness of a decomposition: each plain piece starts no match,
and each match piece, followed by the remaining text, matches the regex
exactly up to its own end, capturing the recorded group. -/
def segsWf (tail : List Char) : List (List Char × List Char × List Char) → Bool
  | [] => true
  | (p, m, g) :: rest =>
    noMatchWithin p (m ++ segsText rest tail) &&
      (matchInherits (m ++ segsText rest tail) == some (g, segsText rest tail)) &&
      segsWf tail rest

/-- The text the source substitutes for one `inherits` match: for each
comma-separated language of the captured group, a newline, the language's
recursively expanded query, and a newline, concatenated in group order. -/
def expandGroup (reader : List Char → String → List Char) (fuel : Nat) (filename : String)
    (grp : List Char) : List Char :=
  ((rustSplit ',' grp).map
    (fun lang => '\n' :: (read_query reader fuel lang filename ++ ['\n']))).flatten

/-! ## Theorems -/

/-- C1: of the eight built-in eq/match predicate names, seven get the
`(negated, match_all)` flags of the specification table, but `any-not-eq?`
is compiled with `negated = false`: the arm that handles it tests for the
name `not-any-eq?`, which that arm can never receive. -/
theorem c1_predicate_flags :
    builtin_text_predicate_flags "eq?" = some (false, true) ∧
      builtin_text_predicate_flags "match?" = some (false, true) ∧
      builtin_text_predicate_flags "not-eq?" = some (true, true) ∧
      builtin_text_predicate_flags "not-match?" = some (true, true) ∧
      builtin_text_predicate_flags "any-eq?" = some (false, false) ∧
      builtin_text_predicate_flags "any-match?" = some (false, false) ∧
      builtin_text_predicate_flags "any-not-match?" = some (true, false) ∧
      builtin_text_predicate_flags "any-not-eq?" = some (false, false) := by
  decide

/-- C8: the accessor guards admit the first out-of-range index.  With one
string (valid id 0) the guard of `get_string` lets id 1 through to the
library, likewise `capture_name` with one capture; and the guard of
`start_byte_for_pattern` checks against the text-predicate count, so pattern
index 1 of a query with one pattern but two text predicates is passed
through unchecked. -/
theorem c8_bounds_check_gaps :
    get_string_guard 1 1 = some () ∧
      capture_name_guard 1 1 = some () ∧
      Query.start_byte_for_pattern
        ⟨[], [[⟨"eq?", [.capture 0, .str 0]⟩, ⟨"eq?", [.capture 0, .str 0]⟩]]⟩ 1 = some () ∧
      Query.pattern_count
        ⟨[], [[⟨"eq?", [.capture 0, .str 0]⟩, ⟨"eq?", [.capture 0, .str 0]⟩]]⟩ = 1 := by
  decide

/-- C10: for a query with one pattern and no predicates, the pattern count
is 1, yet `start_byte_for_pattern` panics on the valid pattern index 0
because its assertion compares the index against the text-predicate count
(here 0) instead of the pattern count. -/
theorem c10_start_byte_panics_on_valid_pattern :
    Query.pattern_count ⟨[], [[]]⟩ = 1 ∧
      Query.start_byte_for_pattern ⟨[], [[]]⟩ 0 = none := by
  decide

/-- C4: `input_matches_str` is wrong across chunk boundaries: on source
chunks `ab|cd` it rejects the needle `abcd` even though the bytes of
`[0, 4)` are exactly `abcd`, and on chunks `ab|ab` it accepts `abcd` even
though the bytes differ (the loop keeps comparing the first chunk's prefix
of the needle). -/
theorem c4_input_matches_str_chunk_bug :
    input_matches_str [97, 98, 99, 100] 0 4 [[97, 98], [99, 100]] = false ∧
      ([[97, 98], [99, 100]] : List (List Nat)).flatten = [97, 98, 99, 100] ∧
      input_matches_str [97, 98, 99, 100] 0 4 [[97, 98], [97, 98]] = true ∧
      ([[97, 98], [97, 98]] : List (List Nat)).flatten ≠ [97, 98, 99, 100] := by
  decide

/-- `sumLen` on the empty chunk list. -/
theorem sumLen_nil : sumLen [] = 0 := rfl

/-- `sumLen` on a chunk cons. -/
theorem sumLen_cons (c : List Nat) (rest : List (List Nat)) :
    sumLen (c :: rest) = c.length + sumLen rest := by
  simp [sumLen]

/-- The library reseek lands on the chunk containing `offset` whenever
`offset` is inside the span of the chunk list. -/
theorem seekChunk_contract : ∀ (chunks : List (List Nat)) (co offset : Nat),
    co ≤ offset → offset < co + sumLen chunks →
    (seekChunk offset co chunks).1 ≤ offset ∧
      offset < (seekChunk offset co chunks).1 + (seekChunk offset co chunks).2.1.length := by
  intro chunks
  induction chunks with
  | nil =>
    intro co offset h1 h2
    rw [sumLen_nil] at h2
    omega
  | cons c rest ih =>
    intro co offset h1 h2
    rw [sumLen_cons] at h2
    rcases rest with _ | ⟨c2, rest2⟩
    · rw [sumLen_nil] at h2
      simp only [seekChunk]
      exact ⟨h1, by omega⟩
    · simp only [seekChunk]
      by_cases hlt : offset < co + c.length
      · rw [if_pos hlt]
        exact ⟨h1, hlt⟩
      · rw [if_neg hlt]
        exact ih (co + c.length) offset (by omega) (by omega)

/-- The advance loop of `cursor_at` lands on the chunk containing `offset`
whenever the cursor starts at or before `offset` and `offset` is inside the
remaining span. -/
theorem advanceWhile_contract : ∀ (rest : List (List Nat)) (co : Nat) (cc : List Nat) (offset : Nat),
    co ≤ offset → offset < co + cc.length + sumLen rest →
    (advanceWhile offset co cc rest).1 ≤ offset ∧
      offset < (advanceWhile offset co cc rest).1 + (advanceWhile offset co cc rest).2.1.length := by
  intro rest
  induction rest with
  | nil =>
    intro co cc offset h1 h2
    rw [sumLen_nil] at h2
    simp only [advanceWhile]
    exact ⟨h1, show offset < co + cc.length by omega⟩
  | cons c rest2 ih =>
    intro co cc offset h1 h2
    rw [sumLen_cons] at h2
    simp only [advanceWhile]
    by_cases hle : co + cc.length ≤ offset
    · rw [if_pos hle]
      exact ih (co + cc.length) c offset (by omega) (by omega)
    · rw [if_neg hle]
      exact ⟨h1, show offset < co + cc.length by omega⟩

/-- C7 (amended): for every chunked source, every valid cursor position and
every offset strictly inside the source, `cursor_at` returns a cursor whose
chunk contains `offset`:
`cursor.offset() ≤ offset < cursor.offset() + cursor.chunk().len()`. -/
theorem c7_cursor_at_amended (pre : List (List Nat)) (cc : List Nat)
    (rest : List (List Nat)) (offset : Nat)
    (h : offset < sumLen (pre ++ cc :: rest)) :
    (cursor_at (pre ++ cc :: rest) (sumLen pre) cc rest offset).1 ≤ offset ∧
      offset < (cursor_at (pre ++ cc :: rest) (sumLen pre) cc rest offset).1 +
        (cursor_at (pre ++ cc :: rest) (sumLen pre) cc rest offset).2.1.length := by
  have hsum : sumLen (pre ++ cc :: rest) = sumLen pre + (cc.length + sumLen rest) := by
    simp [sumLen]
  unfold cursor_at
  by_cases hc : (offset < sumLen pre || sumLen pre + 4906 < offset) = true
  · simp only [hc, if_true]
    exact seekChunk_contract _ 0 offset (Nat.zero_le _) (by omega)
  · simp only [hc, if_false]
    simp only [Bool.or_eq_true, decide_eq_true_eq, not_or, not_lt] at hc
    exact advanceWhile_contract rest (sumLen pre) cc offset (by omega) (by omega)

/-- Witness for C7 at a one-chunk, one-byte source and offset 0. -/
theorem c7_witness :
    0 < sumLen [[97]] ∧
      ((cursor_at [[97]] (sumLen []) [97] [] 0).1 ≤ 0 ∧
        0 < (cursor_at [[97]] (sumLen []) [97] [] 0).1 +
          (cursor_at [[97]] (sumLen []) [97] [] 0).2.1.length) :=
  ⟨by decide, c7_cursor_at_amended [] [97] [] 0 (by decide)⟩

/-- C7 counterexample: at `offset = length` (allowed by the claim, which
admits every `offset ≤ length`) the returned cursor's chunk ends exactly at
`offset`, so the strict upper bound of the contract fails. -/
theorem c7_counterexample :
    sumLen [[97]] = 1 ∧
      ¬ ((cursor_at [[97]] 0 [97] [] 1).1 ≤ 1 ∧
          1 < (cursor_at [[97]] 0 [97] [] 1).1 +
            (cursor_at [[97]] 0 [97] [] 1).2.1.length) := by
  decide

/-- C5: two matches over the same node span processed at the same position
leave on the stack only the highlight of the later match: the first pushes
its highlight, the second pops that entry before pushing its own. -/
theorem c5_same_span_last_wins (cfg : HLConfig) (lookupRef localDefCaptures : Nat → Option Nat)
    (n1 n2 : MatchedNode) (p1 p2 : Nat) (s : List HighlightedNode)
    (hlrc : cfg.localReferenceCapture = none)
    (hnl1 : p1 ∉ cfg.nonLocalPatterns) (hnl2 : p2 ∉ cfg.nonLocalPatterns)
    (hspan : n1.endByte = n2.endByte)
    (h1 : cfg.highlightIndices.getD n1.capture HighlightNONE ≠ HighlightNONE)
    (h2 : cfg.highlightIndices.getD n2.capture HighlightNONE ≠ HighlightNONE) :
    start_highlight cfg lookupRef localDefCaptures n1 p1 ⟨s, true⟩ =
        ⟨s ++ [⟨n1.endByte, cfg.highlightIndices.getD n1.capture HighlightNONE⟩], false⟩ ∧
      start_highlight cfg lookupRef localDefCaptures n2 p2
          ⟨s ++ [⟨n1.endByte, cfg.highlightIndices.getD n1.capture HighlightNONE⟩], false⟩ =
        ⟨s ++ [⟨n2.endByte, cfg.highlightIndices.getD n2.capture HighlightNONE⟩], false⟩ := by
  rw [List.getD_eq_getElem?_getD] at h1 h2
  constructor
  · unfold start_highlight
    rw [hlrc]
    simp [hnl1, h1]
  · unfold start_highlight
    rw [hlrc]
    simp [hnl2, h2, hspan, List.getLast?_concat, List.dropLast_concat]

/-- Witness for C5: highlights 5 then 7 configured for captures 0 and 1 over
the same span; the stack ends holding only highlight 7. -/
theorem c5_witness :
    start_highlight ⟨none, [], [5, 7]⟩ (fun _ => none) (fun _ => none) ⟨0, 0, 4⟩ 0 ⟨[], true⟩ =
        ⟨[⟨4, 5⟩], false⟩ ∧
      start_highlight ⟨none, [], [5, 7]⟩ (fun _ => none) (fun _ => none) ⟨1, 0, 4⟩ 1
          ⟨[⟨4, 5⟩], false⟩ =
        ⟨[⟨4, 7⟩], false⟩ := by
  have h := c5_same_span_last_wins ⟨none, [], [5, 7]⟩ (fun _ => none) (fun _ => none)
    ⟨0, 0, 4⟩ ⟨1, 0, 4⟩ 0 1 [] rfl (by simp) (by simp) rfl (by decide) (by decide)
  exact ⟨h.1, h.2⟩

/-- C6: when a layer deactivates (combined injection, `state = None`),
exactly the stack entries above the layer's recorded `parent_highlights`
mark move, in order, into its `dormant_highlights` (the recorded mark is
unchanged), and the layer's next `enter_injection` appends exactly those
entries back onto the active stack. -/
theorem c6_dormant_roundtrip (ld : LayerDataM) (active : List HighlightedNode) (nhs : Nat)
    (hd : ld.dormantHighlights = []) :
    ((deactivate_layer ld active nhs).1).dormantHighlights = active.drop ld.parentHighlights ∧
      ((deactivate_layer ld active nhs).1).parentHighlights = ld.parentHighlights ∧
      ∀ active2 : List HighlightedNode,
        (enter_injection (deactivate_layer ld active nhs).1 active2).2 =
          active2 ++ active.drop ld.parentHighlights := by
  have hdrop : active.drop (min ld.parentHighlights active.length) =
      active.drop ld.parentHighlights := by
    rcases Nat.le_total ld.parentHighlights active.length with h | h
    · rw [Nat.min_eq_left h]
    · rw [Nat.min_eq_right h, List.drop_length, Eq.comm]
      exact List.drop_eq_nil_of_le h
  refine ⟨?_, rfl, ?_⟩
  · simp [deactivate_layer, hd, hdrop]
  · intro active2
    simp [deactivate_layer, enter_injection, hd, hdrop]

/-- Witness for C6: a stack of two entries with the mark at 1; the top entry
moves to the dormant list and is appended back on re-entry. -/
theorem c6_witness :
    ((deactivate_layer ⟨1, []⟩ [⟨3, 1⟩, ⟨4, 2⟩] 0).1).dormantHighlights =
        ([⟨3, 1⟩, ⟨4, 2⟩] : List HighlightedNode).drop 1 ∧
      ((deactivate_layer ⟨1, []⟩ [⟨3, 1⟩, ⟨4, 2⟩] 0).1).parentHighlights = 1 ∧
      ∀ active2 : List HighlightedNode,
        (enter_injection (deactivate_layer ⟨1, []⟩ [⟨3, 1⟩, ⟨4, 2⟩] 0).1 active2).2 =
          active2 ++ ([⟨3, 1⟩, ⟨4, 2⟩] : List HighlightedNode).drop 1 :=
  c6_dormant_roundtrip ⟨1, []⟩ [⟨3, 1⟩, ⟨4, 2⟩] 0 rfl

/-- The pairs produced by driving `zip` to exhaustion are the usual zip. -/
theorem rustZipRest_pairs {α β : Type} : ∀ (as : List α) (bs : List β),
    (rustZipRest as bs).1 = as.zip bs := by
  intro as
  induction as with
  | nil => intro bs; rfl
  | cons a as ih =>
    intro bs
    cases bs with
    | nil => rfl
    | cons b bs => simp [rustZipRest, List.zip_cons_cons, ih]

/-- The left leftover of the exhausted zip is empty iff the left side holds
at most one element more than the right side. -/
theorem rustZipRest_left_empty {α β : Type} : ∀ (as : List α) (bs : List β),
    (rustZipRest as bs).2.1 = [] ↔ as.length ≤ bs.length + 1 := by
  intro as
  induction as with
  | nil => intro bs; simp [rustZipRest]
  | cons a as ih =>
    intro bs
    cases bs with
    | nil =>
      simp only [rustZipRest, List.length_cons, List.length_nil]
      constructor
      · intro h; simp [h]
      · intro h
        have : as.length = 0 := by omega
        exact List.eq_nil_of_length_eq_zero this
    | cons b bs =>
      simp only [rustZipRest, List.length_cons]
      rw [ih bs]
      omega

/-- The right leftover of the exhausted zip is empty iff the right side
holds at most as many elements as the left side. -/
theorem rustZipRest_right_empty {α β : Type} : ∀ (as : List α) (bs : List β),
    (rustZipRest as bs).2.2 = [] ↔ bs.length ≤ as.length := by
  intro as
  induction as with
  | nil =>
    intro bs
    simp only [rustZipRest, List.length_nil, Nat.le_zero]
    constructor
    · intro h; simp [h]
    · intro h; exact List.eq_nil_of_length_eq_zero h
  | cons a as ih =>
    intro bs
    cases bs with
    | nil => simp [rustZipRest]
    | cons b bs =>
      simp only [rustZipRest, List.length_cons]
      rw [ih bs]
      omega

/-- C3 counterexample: an `eq?` predicate between two captures
(`EqCapture`, `match_all = true`, not negated) evaluates to `true` on a
match where the predicate's capture holds two nodes but the other capture
only one: the claim's equal-count requirement does not hold in the code. -/
theorem c3_counterexample :
    TextPredicate.satisfied ⟨0, .eqCapture 1, false, true⟩ [[97, 97, 97]]
        [⟨0, 0, 1⟩, ⟨0, 1, 2⟩, ⟨1, 2, 3⟩] ⟨[], []⟩ = true ∧
      (([⟨0, 0, 1⟩, ⟨0, 1, 2⟩, ⟨1, 2, 3⟩] : List MatchedNode).filter
          (fun n => n.capture == 0)).length = 2 ∧
      (([⟨0, 0, 1⟩, ⟨0, 1, 2⟩, ⟨1, 2, 3⟩] : List MatchedNode).filter
          (fun n => n.capture == 1)).length = 1 := by
  decide

/-- The all-variant reduction over mapped per-node tests: it holds iff every
element passes its test XOR-ed with `negated`. -/
theorem satisfied_helper_all_map {α : Type} (neg : Bool) (l : List α) (f : α → Bool) :
    satisfied_helper neg true (l.map f) = true ↔ ∀ x ∈ l, f x ≠ neg := by
  unfold satisfied_helper
  rw [if_pos rfl, List.all_eq_true]
  constructor
  · intro h x hx
    have := h (f x) (List.mem_map_of_mem f hx)
    exact bne_iff_ne.mp this
  · intro h b hb
    obtain ⟨x, hx, rfl⟩ := List.mem_map.mp hb
    exact bne_iff_ne.mpr (h x hx)

/-- The any-variant reduction over mapped per-node tests: it holds iff some
element passes its test XOR-ed with `negated`. -/
theorem satisfied_helper_any_map {α : Type} (neg : Bool) (l : List α) (f : α → Bool) :
    satisfied_helper neg false (l.map f) = true ↔ ∃ x ∈ l, f x ≠ neg := by
  unfold satisfied_helper
  rw [if_neg (by decide), List.any_eq_true]
  constructor
  · rintro ⟨b, hb, hne⟩
    obtain ⟨x, hx, rfl⟩ := List.mem_map.mp hb
    exact ⟨x, hx, bne_iff_ne.mp hne⟩
  · rintro ⟨x, hx, hne⟩
    exact ⟨f x, List.mem_map_of_mem f hx, bne_iff_ne.mpr hne⟩

/-- C3 (amended): `TextPredicate::satisfied` holds iff every (`match_all`)
or some (otherwise) per-node test, XOR-ed with `negated`, passes; for
`EqCapture` the tests run over the zipped node pairs of the two captures,
and under `match_all` the other capture must hold at most as many nodes as
the predicate's capture and at most one fewer — equal counts are not
required, a surplus of exactly one node on the predicate's side is also
accepted. -/
theorem c3_satisfied_amended (tp : TextPredicate) (chunks : List (List Nat))
    (nodes : List MatchedNode) (q : Query) :
    tp.satisfied chunks nodes q = true ↔
      (let cn := nodes.filter (fun n => n.capture == tp.capture)
       match tp.kind with
       | .eqCapture other =>
         let os := nodes.filter (fun n => n.capture == other)
         if tp.matchAll then
           (∀ p ∈ cn.zip os,
              inputEq chunks p.1.startByte p.1.endByte p.2.startByte p.2.endByte ≠ tp.negated) ∧
             os.length ≤ cn.length ∧ cn.length ≤ os.length + 1
         else
           ∃ p ∈ cn.zip os,
             inputEq chunks p.1.startByte p.1.endByte p.2.startByte p.2.endByte ≠ tp.negated
       | k =>
         if tp.matchAll then ∀ n ∈ cn, nodeTest q chunks k n ≠ tp.negated
         else ∃ n ∈ cn, nodeTest q chunks k n ≠ tp.negated) := by
  obtain ⟨cap, kind, neg, mall⟩ := tp
  cases kind with
  | eqString strId =>
    cases mall with
    | true =>
      simp only [TextPredicate.satisfied, satisfied_helper_all_map, nodeTest]
      rw [if_pos trivial]
    | false =>
      simp only [TextPredicate.satisfied, satisfied_helper_any_map, nodeTest]
      rw [if_neg (by decide)]
  | matchString test =>
    cases mall with
    | true =>
      simp only [TextPredicate.satisfied, satisfied_helper_all_map, nodeTest]
      rw [if_pos trivial]
    | false =>
      simp only [TextPredicate.satisfied, satisfied_helper_any_map, nodeTest]
      rw [if_neg (by decide)]
  | anyString strIds =>
    cases mall with
    | true =>
      simp only [TextPredicate.satisfied, satisfied_helper_all_map, nodeTest]
      rw [if_pos trivial]
    | false =>
      simp only [TextPredicate.satisfied, satisfied_helper_any_map, nodeTest]
      rw [if_neg (by decide)]
  | eqCapture other =>
    cases mall with
    | true =>
      simp only [TextPredicate.satisfied, Bool.not_true, Bool.false_or, Bool.and_eq_true,
        satisfied_helper_all_map, rustZipRest_pairs, List.isEmpty_iff,
        rustZipRest_left_empty, rustZipRest_right_empty]
      rw [if_pos trivial]
      constructor
      · rintro ⟨hall, hla, hlb⟩
        exact ⟨hall, hlb, hla⟩
      · rintro ⟨hall, hla, hlb⟩
        exact ⟨hall, hlb, hla⟩
    | false =>
      simp only [TextPredicate.satisfied, Bool.not_false, Bool.true_or, Bool.and_true,
        satisfied_helper_any_map, rustZipRest_pairs]
      rw [if_neg (by decide)]

/-- `rustSplit` never returns the empty list. -/
theorem rustSplit_ne_nil (sep : Char) : ∀ s : List Char, rustSplit sep s ≠ [] := by
  intro s
  induction s with
  | nil => simp [rustSplit]
  | cons c rest ih =>
    simp only [rustSplit]
    by_cases hc : c = sep
    · rw [if_pos hc]; simp
    · rw [if_neg hc]
      obtain ⟨l0, ls0, h⟩ := List.exists_cons_of_ne_nil ih
      simp [h]

/-- The separator occurs in no piece produced by `rustSplit`. -/
theorem rustSplit_not_mem (sep : Char) : ∀ s : List Char, ∀ l ∈ rustSplit sep s, sep ∉ l := by
  intro s
  induction s with
  | nil =>
    intro l hl
    simp [rustSplit] at hl
    simp [hl]
  | cons c rest ih =>
    intro l hl
    simp only [rustSplit] at hl
    by_cases hc : c = sep
    · rw [if_pos hc] at hl
      rcases List.mem_cons.mp hl with h1 | h1
      · simp [h1]
      · exact ih l h1
    · obtain ⟨l0, ls0, h⟩ := List.exists_cons_of_ne_nil (rustSplit_ne_nil sep rest)
      rw [if_neg hc] at hl
      rw [h] at hl
      simp only [] at hl
      rcases List.mem_cons.mp hl with h1 | h1
      · subst h1
        intro hmem
        rcases List.mem_cons.mp hmem with h2 | h2
        · exact hc h2.symm
        · exact ih l0 (h ▸ List.mem_cons_self l0 ls0) h2
      · exact ih l (h ▸ List.mem_cons_of_mem l0 h1)

/-- `joinLines` on a cons with a nonempty tail. -/
theorem joinLines_cons (l : List Char) (ls : List (List Char)) (h : ls ≠ []) :
    joinLines (l :: ls) = l ++ '\n' :: joinLines ls := by
  cases ls with
  | nil => exact absurd rfl h
  | cons a as => rfl

/-- Splitting at newlines and joining with newlines restores the text. -/
theorem joinLines_rustSplit : ∀ s : List Char, joinLines (rustSplit '\n' s) = s := by
  intro s
  induction s with
  | nil => rfl
  | cons c rest ih =>
    simp only [rustSplit]
    by_cases hc : c = '\n'
    · rw [if_pos hc, joinLines_cons [] _ (rustSplit_ne_nil '\n' rest), ih, hc]
      rfl
    · rw [if_neg hc]
      obtain ⟨l0, ls0, h⟩ := List.exists_cons_of_ne_nil (rustSplit_ne_nil '\n' rest)
      have ih2 : joinLines (l0 :: ls0) = rest := h ▸ ih
      rw [h]
      simp only []
      cases ls0 with
      | nil =>
        simp only [joinLines] at ih2 ⊢
        rw [ih2]
      | cons b bs =>
        rw [joinLines_cons _ _ (by simp)]
        rw [joinLines_cons _ _ (by simp)] at ih2
        rw [List.cons_append, ih2]

/-- `takeWhile` ignores everything from a failing element on. -/
theorem takeWhile_append_stop {p : Char → Bool} (a : Char) (ha : p a = false) :
    ∀ X Y : List Char, (X ++ a :: Y).takeWhile p = X.takeWhile p := by
  intro X Y
  induction X with
  | nil => simp [List.takeWhile_cons, ha]
  | cons x xs ih =>
    simp only [List.cons_append, List.takeWhile_cons]
    by_cases hx : p x = true
    · rw [if_pos hx, if_pos hx, ih]
    · rw [if_neg hx, if_neg hx]

/-- `takeWhile` keeps a whole newline-free list. -/
theorem takeWhile_ne_nl_eq_self {l : List Char} (h : ('\n' : Char) ∉ l) :
    l.takeWhile (fun c => c != '\n') = l := by
  rw [List.takeWhile_eq_self_iff]
  intro x hx
  simp only [bne_iff_ne]
  exact fun e => h (e ▸ hx)

/-- `takeWhile` never lengthens a list. -/
theorem takeWhileLenLe (p : Char → Bool) : ∀ l : List Char, (l.takeWhile p).length ≤ l.length := by
  intro l
  induction l with
  | nil => simp
  | cons x xs ih =>
    rw [List.takeWhile_cons]
    by_cases hx : p x = true
    · rw [if_pos hx]; simpa using ih
    · rw [if_neg hx]; simp

/-- A newline-free list holds no newline occurrences. -/
theorem countNl_eq_zero {l : List Char} (h : ('\n' : Char) ∉ l) : countNl l = 0 := by
  unfold countNl
  rw [List.length_eq_zero, List.filter_eq_nil_iff]
  intro a ha
  simp only [beq_iff_eq]
  exact fun e => h (e ▸ ha)

/-- `countNl` distributes over append. -/
theorem countNl_append (a b : List Char) : countNl (a ++ b) = countNl a + countNl b := by
  simp [countNl, List.filter_append]

/-- `countNl` counts a leading newline. -/
theorem countNl_cons_nl (X : List Char) : countNl ('\n' :: X) = countNl X + 1 := by
  simp [countNl, List.filter_cons]

/-- The searching loop of `ParserErrorLocation::new`, run on a nonempty list
of newline-free lines, finds the line whose 0-based index is the newline
count before the offset, together with that line's start offset and its
content. -/
theorem findLine_spec : ∀ (lines : List (List Char)) (n off start : Nat),
    (∀ l ∈ lines, ('\n' : Char) ∉ l) → lines ≠ [] → off ≤ start →
    start - off ≤ (joinLines lines).length →
    findLine start n off lines =
      some (n + countNl ((joinLines lines).take (start - off)),
        off + lineStartAt (joinLines lines) (start - off),
        currentLineAt (joinLines lines) (start - off)) := by
  intro lines
  induction lines with
  | nil => intro n off start _ hne _ _; exact absurd rfl hne
  | cons l rest ih =>
    intro n off start hnl _ hoff hlen
    have hln : ('\n' : Char) ∉ l := hnl l (List.mem_cons_self l rest)
    rcases rest with _ | ⟨l2, ls⟩
    · have hJl : joinLines [l] = l := rfl
      rw [hJl] at hlen ⊢
      simp only [findLine]
      rw [if_pos ⟨hoff, by omega⟩]
      have h1 : countNl (l.take (start - off)) = 0 :=
        countNl_eq_zero (fun hmem => hln (List.mem_of_mem_take hmem))
      have h2 : lineStartAt l (start - off) = 0 := by
        unfold lineStartAt
        rw [takeWhile_ne_nl_eq_self
          (fun hmem => hln (List.mem_of_mem_take (List.mem_reverse.mp hmem)))]
        rw [List.length_reverse, List.length_take]
        omega
      have h3 : currentLineAt l (start - off) = l := by
        unfold currentLineAt
        rw [h2, List.drop_zero]
        exact takeWhile_ne_nl_eq_self hln
      rw [h1, h2, h3]
      simp
    · have hJ : joinLines (l :: l2 :: ls) = l ++ '\n' :: joinLines (l2 :: ls) := rfl
      by_cases hcase : start ≤ off + l.length
      · simp only [findLine]
        rw [if_pos ⟨hoff, hcase⟩]
        have hs' : start - off ≤ l.length := by omega
        have htake : (joinLines (l :: l2 :: ls)).take (start - off) = l.take (start - off) := by
          rw [hJ]
          exact List.take_append_of_le_length hs'
        have h1 : countNl ((joinLines (l :: l2 :: ls)).take (start - off)) = 0 := by
          rw [htake]
          exact countNl_eq_zero (fun hmem => hln (List.mem_of_mem_take hmem))
        have h2 : lineStartAt (joinLines (l :: l2 :: ls)) (start - off) = 0 := by
          unfold lineStartAt
          rw [htake, takeWhile_ne_nl_eq_self
            (fun hmem => hln (List.mem_of_mem_take (List.mem_reverse.mp hmem)))]
          rw [List.length_reverse, List.length_take]
          omega
        have h3 : currentLineAt (joinLines (l :: l2 :: ls)) (start - off) = l := by
          unfold currentLineAt
          rw [h2, List.drop_zero, hJ, takeWhile_append_stop '\n' (by simp)]
          exact takeWhile_ne_nl_eq_self hln
        rw [h1, h2, h3]
        simp
      · have hJlen : (joinLines (l :: l2 :: ls)).length =
            l.length + 1 + (joinLines (l2 :: ls)).length := by
          rw [hJ]
          simp only [List.length_append, List.length_cons]
          omega
        rw [show findLine start n off (l :: l2 :: ls) =
            findLine start (n + 1) (off + l.length + 1) (l2 :: ls) from by
          simp only [findLine]
          rw [if_neg (by omega : ¬ (off ≤ start ∧ start ≤ off + l.length))]]
        have hrec := ih (n + 1) (off + l.length + 1) start
          (fun x hx => hnl x (List.mem_cons_of_mem l hx)) (by simp) (by omega) (by omega)
        rw [hrec]
        have hs12 : start - off = l.length + 1 + (start - (off + l.length + 1)) := by omega
        have hsplit : (joinLines (l :: l2 :: ls)).take (start - off) =
            l ++ '\n' :: (joinLines (l2 :: ls)).take (start - (off + l.length + 1)) := by
          rw [hJ, List.take_append_eq_append_take, List.take_of_length_le (by omega)]
          have he : start - off - l.length = (start - (off + l.length + 1)) + 1 := by omega
          rw [he]
          rfl
        have hc : countNl ((joinLines (l :: l2 :: ls)).take (start - off)) =
            countNl ((joinLines (l2 :: ls)).take (start - (off + l.length + 1))) + 1 := by
          rw [hsplit, countNl_append, countNl_cons_nl, countNl_eq_zero hln]
          omega
        have hT : ((joinLines (l :: l2 :: ls)).take (start - off)).reverse.takeWhile
              (fun c => c != '\n') =
            (((joinLines (l2 :: ls)).take (start - (off + l.length + 1))).reverse).takeWhile
              (fun c => c != '\n') := by
          rw [hsplit]
          have hr : (l ++ '\n' :: (joinLines (l2 :: ls)).take
                (start - (off + l.length + 1))).reverse =
              ((joinLines (l2 :: ls)).take (start - (off + l.length + 1))).reverse ++
                '\n' :: l.reverse := by
            simp
          rw [hr]
          exact takeWhile_append_stop '\n' (by simp) _ _
        have hTle : ((((joinLines (l2 :: ls)).take (start - (off + l.length + 1))).reverse).takeWhile
              (fun c => c != '\n')).length ≤ start - (off + l.length + 1) := by
          have ha := takeWhileLenLe (fun c => c != '\n')
            (((joinLines (l2 :: ls)).take (start - (off + l.length + 1))).reverse)
          rw [List.length_reverse, List.length_take] at ha
          omega
        have h2 : lineStartAt (joinLines (l :: l2 :: ls)) (start - off) =
            l.length + 1 + lineStartAt (joinLines (l2 :: ls)) (start - (off + l.length + 1)) := by
          unfold lineStartAt
          rw [hT]
          omega
        have h3 : currentLineAt (joinLines (l :: l2 :: ls)) (start - off) =
            currentLineAt (joinLines (l2 :: ls)) (start - (off + l.length + 1)) := by
          unfold currentLineAt
          rw [h2, hJ, List.drop_append_eq_append_drop,
            List.drop_eq_nil_of_le (by omega : l.length ≤ l.length + 1 +
              lineStartAt (joinLines (l2 :: ls)) (start - (off + l.length + 1))),
            List.nil_append]
          have he : l.length + 1 + lineStartAt (joinLines (l2 :: ls))
              (start - (off + l.length + 1)) - l.length =
              lineStartAt (joinLines (l2 :: ls)) (start - (off + l.length + 1)) + 1 := by
            omega
          rw [he, List.drop_succ_cons]
        rw [hc, h2, h3]
        simp only [Option.some.injEq, Prod.mk.injEq]
        refine ⟨by omega, by omega, by simp⟩

/-- C2 (amended): for every offset `off ≤ source.length`,
`ParserErrorLocation::new` stores the 0-based line number (the newline count
before `off`), the 0-based codepoint column from the line start, and exactly
the line containing `off` with one trailing carriage return stripped.  (The
1-based values of the claim appear only in the rendering, which adds 1 to
both fields.) -/
theorem c2_error_location_amended (source : List Char) (off len : Nat)
    (h : off ≤ source.length) :
    (ParserErrorLocation.new source off len).line = countNl (source.take off) ∧
      (ParserErrorLocation.new source off len).column = off - lineStartAt source off ∧
      (ParserErrorLocation.new source off len).lineContent =
        stripCRSuffix (currentLineAt source off) := by
  have hspec := findLine_spec (rustSplit '\n' source) 0 0 off
    (rustSplit_not_mem '\n' source) (rustSplit_ne_nil '\n' source) (Nat.zero_le off)
    (by rw [joinLines_rustSplit]; omega)
  rw [joinLines_rustSplit] at hspec
  unfold ParserErrorLocation.new
  rw [hspec]
  simp only [Nat.zero_add, Nat.sub_zero]
  refine ⟨by simp, ?_, by simp⟩
  have hls : lineStartAt source off ≤ off := by
    unfold lineStartAt
    omega
  simp only [List.length_drop, List.length_take]
  omega

/-- Witness for C2 at source `a\nbc` and offset 3: line 1, column 1, content
`bc`. -/
theorem c2_witness :
    (ParserErrorLocation.new ("a\nbc".toList) 3 0).line = countNl (("a\nbc".toList).take 3) ∧
      (ParserErrorLocation.new ("a\nbc".toList) 3 0).column =
        3 - lineStartAt ("a\nbc".toList) 3 ∧
      (ParserErrorLocation.new ("a\nbc".toList) 3 0).lineContent =
        stripCRSuffix (currentLineAt ("a\nbc".toList) 3) :=
  c2_error_location_amended ("a\nbc".toList) 3 0 (by decide)

/-- C2 counterexample: at offset 3 of `ab\ncd` (the character `c`, 1-based
line 2 and 1-based column 1) the stored fields are `line = 1` and
`column = 0`: the fields are 0-based, not 1-based as claimed. -/
theorem c2_counterexample :
    (ParserErrorLocation.new ("ab\ncd".toList) 3 1).line ≠
        countNl (("ab\ncd".toList).take 3) + 1 ∧
      (ParserErrorLocation.new ("ab\ncd".toList) 3 1).column ≠
        (3 - lineStartAt ("ab\ncd".toList) 3) + 1 ∧
      (ParserErrorLocation.new ("ab\ncd".toList) 3 1).line = 1 ∧
      (ParserErrorLocation.new ("ab\ncd".toList) 3 1).column = 0 := by
  decide

/-- `read_query` at positive fuel, unfolded once. -/
theorem read_query_succ (reader : List Char → String → List Char) (fuel : Nat)
    (language : List Char) (filename : String) :
    read_query reader (fuel + 1) language filename =
      replaceAllInherits
        (fun grp =>
          (rustSplit ',' grp).foldl
            (fun output lang => output ++ '\n' :: (read_query reader fuel lang filename ++ ['\n']))
            [])
        (reader language filename) := rfl

/-- The replace-all scan yields nothing on an empty text. -/
theorem replaceAllGo_nil (repl : List Char → List Char) : ∀ f : Nat, replaceAllGo repl f [] = [] := by
  intro f
  cases f with
  | zero => rfl
  | succ g => rfl

/-- Scanning one step over a successful match. -/
theorem replaceAllGo_step (repl : List Char → List Char) (f : Nat) (s g a : List Char)
    (h : matchInherits s = some (g, a)) :
    replaceAllGo repl (f + 1) s = repl g ++ replaceAllGo repl f a := by
  cases s with
  | nil => simp [matchInherits] at h
  | cons c rest =>
    simp only [replaceAllGo, h]

/-- The scan walks over a semicolon-free piece of text unchanged, consuming
one unit of fuel per character (a match always begins with a semicolon). -/
theorem replaceAllGo_scan (repl : List Char → List Char) :
    ∀ (p r : List Char) (f : Nat), (∀ c ∈ p, c ≠ ';') →
    replaceAllGo repl (p.length + f) (p ++ r) = p ++ replaceAllGo repl f r := by
  intro p
  induction p with
  | nil => intro r f _; simp
  | cons c p2 ih =>
    intro r f hp
    have hc : c ≠ ';' := hp c (List.mem_cons_self c p2)
    have hm : matchInherits (c :: (p2 ++ r)) = none := by
      simp only [matchInherits]
      rw [if_neg hc]
    simp only [List.cons_append, List.length_cons]
    rw [show p2.length + 1 + f = (p2.length + f) + 1 from by omega]
    simp only [replaceAllGo, hm]
    rw [ih r f (fun x hx => hp x (List.mem_cons_of_mem c hx))]

/-- A semicolon-free text is left unchanged by the replace-all scan. -/
theorem replaceAllGo_noSemi (repl : List Char → List Char) (s : List Char) (f : Nat)
    (hs : ∀ c ∈ s, c ≠ ';') (hf : s.length ≤ f) :
    replaceAllGo repl f s = s := by
  obtain ⟨k, rfl⟩ : ∃ k, f = s.length + k := ⟨f - s.length, by omega⟩
  have h2 := replaceAllGo_scan repl s [] k hs
  simp only [List.append_nil, replaceAllGo_nil] at h2
  exact h2

/-- `dropWhile` never lengthens a list. -/
theorem dropWhileLenLe (p : Char → Bool) : ∀ l : List Char, (l.dropWhile p).length ≤ l.length := by
  intro l
  induction l with
  | nil => simp
  | cons x xs ih =>
    rw [List.dropWhile_cons]
    by_cases hx : p x = true
    · rw [if_pos hx]
      simp only [List.length_cons]
      omega
    · rw [if_neg hx]

/-- A successful body match leaves a remainder no longer than its input. -/
theorem matchInheritsBody_le (s g a : List Char) (h : matchInheritsBody s = some (g, a)) :
    a.length ≤ s.length := by
  simp only [matchInheritsBody] at h
  set t1 := s.dropWhile isWsAscii with ht1
  set t2 := (t1.drop 8).dropWhile isWsAscii with ht2
  set t3 := if t2.head? = some ':' then t2.tail else t2 with ht3
  set t4 := t3.dropWhile isWsAscii with ht4
  set grp := t4.takeWhile isGroupChar with hgrp
  have c1 : t1.length ≤ s.length := dropWhileLenLe _ _
  have c2 : t2.length ≤ t1.length := by
    have hd := dropWhileLenLe isWsAscii (t1.drop 8)
    rw [List.length_drop] at hd
    rw [ht2]
    omega
  have c3 : t3.length ≤ t2.length := by
    rw [ht3]
    by_cases hh : t2.head? = some ':'
    · rw [if_pos hh, List.length_tail]
      omega
    · rw [if_neg hh]
  have c4 : t4.length ≤ t3.length := dropWhileLenLe _ _
  split at h
  · split at h
    · exact absurd h (by simp)
    · rw [Option.some.injEq, Prod.mk.injEq] at h
      have ha : a = (t4.drop grp.length).dropWhile isWsAscii := h.2.symm
      have c5 : a.length ≤ t4.length := by
        have hd := dropWhileLenLe isWsAscii (t4.drop grp.length)
        rw [List.length_drop] at hd
        rw [ha]
        omega
      omega
  · exact absurd h (by simp)

/-- A successful match of the `inherits` regex consumes at least one
character: the remainder is strictly shorter than the input. -/
theorem matchInherits_lt (s g a : List Char) (h : matchInherits s = some (g, a)) :
    a.length < s.length := by
  cases s with
  | nil => simp [matchInherits] at h
  | cons c rest =>
    simp only [matchInherits] at h
    by_cases hc : c = ';'
    · rw [if_pos hc] at h
      have h1 := matchInheritsBody_le _ _ _ h
      have h2 := dropWhileLenLe (fun x => x = ';') rest
      simp only [List.length_cons]
      omega
    · rw [if_neg hc] at h
      exact absurd h (by simp)

/-- The replace-all scan walks over a piece of text in which no match
begins, emitting it unchanged and consuming one unit of fuel per
character.  The piece may contain semicolons (ordinary comments), as long
as no position inside it starts an `inherits` match. -/
theorem noMatchWithin_scan (repl : List Char → List Char) :
    ∀ (p r : List Char) (f : Nat), noMatchWithin p r = true →
    replaceAllGo repl (p.length + f) (p ++ r) = p ++ replaceAllGo repl f r := by
  intro p
  induction p with
  | nil => intro r f _; simp
  | cons c p2 ih =>
    intro r f h
    simp only [noMatchWithin, Bool.and_eq_true, Option.isNone_iff_eq_none] at h
    obtain ⟨hm, h2⟩ := h
    simp only [List.cons_append, List.length_cons]
    rw [show p2.length + 1 + f = (p2.length + f) + 1 from by omega]
    simp only [replaceAllGo, hm]
    rw [ih r f h2]

/-- A text in which no match begins is left unchanged by the scan. -/
theorem replaceAllGo_noMatch (repl : List Char → List Char) (s : List Char) (f : Nat)
    (hs : noMatchWithin s [] = true) (hf : s.length ≤ f) :
    replaceAllGo repl f s = s := by
  obtain ⟨k, rfl⟩ : ∃ k, f = s.length + k := ⟨f - s.length, by omega⟩
  have h2 := noMatchWithin_scan repl s [] k hs
  simp only [List.append_nil, replaceAllGo_nil] at h2
  exact h2

/-- The fold the source runs over the comma-split group equals the
concatenation, per language, of a newline, the recursively read query and a
newline. -/
theorem foldl_expandGroup (reader : List Char → String → List Char) (fuel : Nat) (fn : String) :
    ∀ (langs : List (List Char)) (acc : List Char),
    langs.foldl
        (fun output lang => output ++ '\n' :: (read_query reader fuel lang fn ++ ['\n'])) acc =
      acc ++ (langs.map (fun lang => '\n' :: (read_query reader fuel lang fn ++ ['\n']))).flatten := by
  intro langs
  induction langs with
  | nil => intro acc; simp
  | cons l ls ih =>
    intro acc
    simp only [List.foldl_cons, List.map_cons, List.flatten_cons, ih, List.append_assoc]

/-- The replace-all scan over a well-formed decomposition: every match is
replaced and every plain piece, including the final one, is emitted
unchanged, in order. -/
theorem replaceAllGo_segments (repl : List Char → List Char) :
    ∀ (segs : List (List Char × List Char × List Char)) (tail : List Char) (f : Nat),
    segsWf tail segs = true → noMatchWithin tail [] = true →
    (segsText segs tail).length ≤ f →
    replaceAllGo repl f (segsText segs tail) =
      (segs.map (fun s => s.1 ++ repl s.2.2)).flatten ++ tail := by
  intro segs
  induction segs with
  | nil =>
    intro tail f _ htail hf
    simp only [segsText, List.map_nil, List.flatten_nil, List.nil_append]
    exact replaceAllGo_noMatch repl tail f htail hf
  | cons seg rest ih =>
    obtain ⟨p, m, g⟩ := seg
    intro tail f hwf htail hf
    simp only [segsWf, Bool.and_eq_true, beq_iff_eq] at hwf
    obtain ⟨⟨hp, hm⟩, hrest⟩ := hwf
    simp only [segsText] at hf ⊢
    obtain ⟨f1, rfl⟩ : ∃ f1, f = p.length + f1 := ⟨f - p.length, by
      simp only [List.length_append] at hf
      omega⟩
    rw [List.append_assoc, noMatchWithin_scan repl p (m ++ segsText rest tail) f1 hp]
    have hlt := matchInherits_lt _ _ _ hm
    simp only [List.length_append] at hf hlt
    obtain ⟨f2, rfl⟩ : ∃ f2, f1 = f2 + 1 := ⟨f1 - 1, by omega⟩
    rw [replaceAllGo_step repl f2 _ _ _ hm]
    rw [ih tail f2 hrest htail (by omega)]
    simp [List.append_assoc]

/-- C9 (amended): `read_query` expands every `inherits` comment wherever it
occurs in the file.  For any decomposition of the file into plain pieces in
which no match begins (they may hold other `;` comments) alternating with
matches of the regex, each match is replaced by the concatenation, for each
comma-separated language of its captured group, of a newline, that
language's recursively read query, and a newline, while all text outside
the matches is left unchanged, in order. -/
theorem c9_read_query_amended (reader : List Char → String → List Char) (fn : String)
    (lang : List Char) (fuel : Nat)
    (segs : List (List Char × List Char × List Char)) (tail : List Char)
    (hread : reader lang fn = segsText segs tail)
    (hwf : segsWf tail segs = true)
    (htail : noMatchWithin tail [] = true) :
    read_query reader (fuel + 1) lang fn =
      (segs.map (fun s => s.1 ++ expandGroup reader fuel fn s.2.2)).flatten ++ tail := by
  rw [read_query_succ, hread]
  unfold replaceAllInherits
  rw [replaceAllGo_segments _ segs tail _ hwf htail le_rfl]
  have hrepl : ∀ grp : List Char,
      (rustSplit ',' grp).foldl
        (fun output lang2 => output ++ '\n' :: (read_query reader fuel lang2 fn ++ ['\n'])) [] =
      expandGroup reader fuel fn grp := by
    intro grp
    rw [foldl_expandGroup]
    simp [expandGroup]
  simp only [hrepl]

/-- Witness for C9: a file opening with an ordinary `; note` comment, a
two-language directive `; inherits: b,c` in the middle, a second directive
`;; inherits d` further down, and trailing text `@z`; every directive is
expanded in place and all other text survives. -/
theorem c9_witness :
    read_query
        (fun l _ => if l = ['a'] then
            ("; note\n(x)\n".toList ++ "; inherits: b,c\n".toList ++ "(y)".toList ++
              ";; inherits d\n".toList ++ "@z".toList)
          else if l = ['b'] then "(qb)".toList
          else if l = ['c'] then "(qc)".toList
          else if l = ['d'] then "(qd)".toList else [])
        2 ['a'] "f" =
      (([("; note\n(x)\n".toList, "; inherits: b,c\n".toList, "b,c".toList),
          ("(y)".toList, ";; inherits d\n".toList, ['d'])].map
        (fun s => s.1 ++ expandGroup
          (fun l _ => if l = ['a'] then
              ("; note\n(x)\n".toList ++ "; inherits: b,c\n".toList ++ "(y)".toList ++
                ";; inherits d\n".toList ++ "@z".toList)
            else if l = ['b'] then "(qb)".toList
            else if l = ['c'] then "(qc)".toList
            else if l = ['d'] then "(qd)".toList else [])
          1 "f" s.2.2)).flatten) ++ "@z".toList :=
  c9_read_query_amended
    (fun l _ => if l = ['a'] then
        ("; note\n(x)\n".toList ++ "; inherits: b,c\n".toList ++ "(y)".toList ++
          ";; inherits d\n".toList ++ "@z".toList)
      else if l = ['b'] then "(qb)".toList
      else if l = ['c'] then "(qc)".toList
      else if l = ['d'] then "(qd)".toList else [])
    "f" ['a'] 1
    [("; note\n(x)\n".toList, "; inherits: b,c\n".toList, "b,c".toList),
      ("(y)".toList, ";; inherits d\n".toList, ['d'])]
    "@z".toList (by decide) (by decide) (by decide)

/-- C9 counterexample: a file whose `inherits` comment is on its second
line, not at the top.  The code expands it anyway (`replace_all`), so the
result differs from the unchanged file that the claim requires. -/
theorem c9_counterexample :
    read_query
        (fun lang _ => if lang = ['a'] then "x\n; inherits: b".toList
          else if lang = ['b'] then ['B'] else [])
        2 ['a'] "f" = "x\n\nB\n".toList ∧
      "x\n\nB\n".toList ≠ "x\n; inherits: b".toList := by
  decide
